import Mathlib

/-!
Verification of the n-puzzle solver core (solvability check, Manhattan +
linear-conflict heuristic, neighbor generation, A* search loop).

The Python source is shallowly embedded: boards are flat row-major lists of
naturals with 0 for the blank, Python ints become `Int` where arithmetic can
matter and `Nat` for indices/counters, and the A* loop becomes a fuel-indexed
recursion whose frontier pop takes a minimal element of the frontier list
under the `PQItem` field order (exactly what `heapq` guarantees).  The
wall-clock `time` field of the result record is omitted: it is the one field
outside functional behaviour.
-/

/-- A board: flat row-major tuple of n*n values, 0 is the blank. -/
abbrev Board := List Nat

/-- `goal_board n` from `state.py`: tiles 1..(n^2-1) then 0 in the bottom-right. -/
def goal_board (n : Nat) : Board :=
  ((List.range (n * n - 1)).map (fun i => i + 1)) ++ [0]

/-- `build_goal_positions n` from `heuristics.py`: index = tile value, entry =
(row, col) of that value in the goal state; value 0 maps to (n-1, n-1),
value v ≥ 1 maps to ((v-1) / n, (v-1) % n). -/
def build_goal_positions (n : Nat) : List (Nat × Nat) :=
  (List.range (n * n)).map (fun val => if val = 0 then (n - 1, n - 1) else ((val - 1) / n, (val - 1) % n))

/-- The contribution of one cell to the Manhattan distance (0 for the blank). -/
def mdTerm (n : Nat) (goal_pos : List (Nat × Nat)) (idx val : Nat) : Int :=
  if val = 0 then 0
  else
    |((idx / n : Nat) : Int) - ((goal_pos.getD val (0, 0)).1 : Int)| +
    |((idx % n : Nat) : Int) - ((goal_pos.getD val (0, 0)).2 : Int)|

/-- Auxiliary indexed sum for `manhattan`. -/
def mdAux (n : Nat) (goal_pos : List (Nat × Nat)) : Nat → List Nat → Int
  | _, [] => 0
  | idx, v :: rest => mdTerm n goal_pos idx v + mdAux n goal_pos (idx + 1) rest

/-- `manhattan n b goal_pos` from `heuristics.py`: sum over all non-blank cells
of |row - goal_row| + |col - goal_col|. -/
def manhattan (n : Nat) (b : Board) (goal_pos : List (Nat × Nat)) : Int :=
  mdAux n goal_pos 0 b

/-- Count of pairs (i < j) in a list whose keys are out of order (key j < key i),
mirroring the doubly nested conflict loops of `linear_conflict`. -/
def pairConf (key : Nat → Nat) : List Nat → Nat
  | [] => 0
  | x :: xs => xs.countP (fun y => key y < key x) + pairConf key xs

/-- Tiles of row r that sit in their goal row, in left-to-right order
(the `row_tiles` accumulation in `linear_conflict`). -/
def row_tiles (n : Nat) (b : Board) (goal_pos : List (Nat × Nat)) (r : Nat) : List Nat :=
  (List.range n).filterMap (fun c =>
    let val := b.getD (r * n + c) 0
    if val ≠ 0 ∧ (goal_pos.getD val (0, 0)).1 = r then some val else none)

/-- Tiles of column c that sit in their goal column, in top-to-bottom order
(the `col_tiles` accumulation in `linear_conflict`). -/
def col_tiles (n : Nat) (b : Board) (goal_pos : List (Nat × Nat)) (c : Nat) : List Nat :=
  (List.range n).filterMap (fun r =>
    let val := b.getD (r * n + c) 0
    if val ≠ 0 ∧ (goal_pos.getD val (0, 0)).2 = c then some val else none)

/-- `linear_conflict n b goal_pos` from `heuristics.py`: 2 per pair of
goal-row-aligned tiles of a row whose goal columns are inverted, plus the
symmetric count over columns using goal rows. -/
def linear_conflict (n : Nat) (b : Board) (goal_pos : List (Nat × Nat)) : Int :=
  (((List.range n).map (fun r =>
      2 * pairConf (fun v => (goal_pos.getD v (0, 0)).2) (row_tiles n b goal_pos r))).sum : Nat)
  + (((List.range n).map (fun c =>
      2 * pairConf (fun v => (goal_pos.getD v (0, 0)).1) (col_tiles n b goal_pos c))).sum : Nat)

/-- `heuristic n b goal_pos` from `heuristics.py`: Manhattan + linear conflict. -/
def heuristic (n : Nat) (b : Board) (goal_pos : List (Nat × Nat)) : Int :=
  manhattan n b goal_pos + linear_conflict n b goal_pos

/-- Inversions of the blank-stripped sequence: for each element, the number of
strictly smaller elements occurring later (the O(k^2) scan of `inversion_count`). -/
def countInv : List Nat → Nat
  | [] => 0
  | x :: xs => xs.countP (fun y => y < x) + countInv xs

/-- `inversion_count seq` from `solvability.py`: inversions of the board with
the blank removed. -/
def inversion_count (seq : List Nat) : Nat :=
  countInv (seq.filter (fun x => x ≠ 0))

/-- `is_solvable n b` from `solvability.py`: parity rule on inversions and
(for even n) the blank row counted from the bottom starting at 1. -/
def is_solvable (n : Nat) (b : Board) : Bool :=
  let inv := inversion_count b
  if n % 2 = 1 then
    inv % 2 = 0
  else
    let blank_idx := b.indexOf 0
    let blank_row_from_top := blank_idx / n
    let blank_row_from_bottom := n - blank_row_from_top
    if blank_row_from_bottom % 2 = 0 then inv % 2 = 1 else inv % 2 = 0

/-- The in-place double assignment `bb[z], bb[nidx] = bb[nidx], bb[z]` of
`neighbors` on a fresh copy: the list with cells i and j exchanged. -/
def swapCells (b : Board) (i j : Nat) : Board :=
  (b.set i (b.getD j 0)).set j (b.getD i 0)

/-- `neighbors n b` from `search.py`: the (next_board, move) pairs reachable by
sliding the blank once, generated in the order U, D, L, R. -/
def neighbors (n : Nat) (b : Board) : List (Board × String) :=
  let z := b.indexOf 0
  let zr := z / n
  let zc := z % n
  (if 0 < zr then [(swapCells b z (z - n), "U")] else []) ++
  (if zr < n - 1 then [(swapCells b z (z + n), "D")] else []) ++
  (if 0 < zc then [(swapCells b z (z - 1), "L")] else []) ++
  (if zc < n - 1 then [(swapCells b z (z + 1), "R")] else [])

/-- Apply one move label via the transition generator (used to state path
certificates): the board `neighbors` associates with that label, if any. -/
def applyMove (n : Nat) (b : Board) (mv : String) : Option Board :=
  ((neighbors n b).find? (fun p => p.2 = mv)).map Prod.fst

/-- Apply a list of move labels in order via `neighbors`. -/
def applyMoves (n : Nat) : List String → Board → Option Board
  | [], b => some b
  | mv :: rest, b =>
    match applyMove n b mv with
    | none => none
    | some b2 => applyMoves n rest b2

/-- Python tuple/list comparison, `<`: strict lexicographic order on lists. -/
def pyListLt : List Nat → List Nat → Prop
  | [], [] => False
  | [], _ :: _ => True
  | _ :: _, [] => False
  | x :: xs, y :: ys => x < y ∨ (x = y ∧ pyListLt xs ys)

instance decPyListLt : (a : List Nat) → (b : List Nat) → Decidable (pyListLt a b)
  | [], [] => isFalse (fun h => h)
  | [], _ :: _ => isTrue trivial
  | _ :: _, [] => isFalse (fun h => h)
  | x :: xs, y :: ys =>
    have : Decidable (pyListLt xs ys) := decPyListLt xs ys
    inferInstanceAs (Decidable (x < y ∨ (x = y ∧ pyListLt xs ys)))

/-- `PQItem` from `search.py`: priority queue record; `@dataclass(order=True)`
compares the fields lexicographically in declaration order f, h, g, board. -/
structure PQItem where
  f : Int
  h : Int
  g : Int
  board : Board
deriving DecidableEq

/-- The `(f, h, g)` part of the `PQItem` comparison: the stated frontier key. -/
def keyLt (a b : PQItem) : Prop :=
  a.f < b.f ∨ (a.f = b.f ∧ (a.h < b.h ∨ (a.h = b.h ∧ a.g < b.g)))

instance : DecidablePred (fun p : PQItem × PQItem => keyLt p.1 p.2) := fun _ =>
  inferInstanceAs (Decidable (_ ∨ _))

instance decKeyLt (a b : PQItem) : Decidable (keyLt a b) :=
  inferInstanceAs (Decidable (_ ∨ _))

/-- The full dataclass order on `PQItem`: f, then h, then g, then the board
tuple itself (Python tuple comparison). -/
def itemLt (a b : PQItem) : Prop :=
  a.f < b.f ∨ (a.f = b.f ∧ (a.h < b.h ∨ (a.h = b.h ∧
    (a.g < b.g ∨ (a.g = b.g ∧ pyListLt a.board b.board)))))

instance decItemLt (a b : PQItem) : Decidable (itemLt a b) :=
  inferInstanceAs (Decidable (_ ∨ _))

/-- Scan for a minimal element under `itemLt` (ties keep the earlier element):
returns that element and the list with it removed.  `heapq.heappop` returns a
minimal element of the heap, which is exactly this selection up to the
placement of equal items — and the search never pushes two equal items. -/
def selectMin (x : PQItem) : List PQItem → PQItem × List PQItem
  | [] => (x, [])
  | y :: ys =>
    if itemLt y x then
      let r := selectMin y ys
      (r.1, x :: r.2)
    else
      let r := selectMin x ys
      (r.1, y :: r.2)

/-- Pop a minimal frontier entry, `heapq.heappop`: minimal item plus the rest. -/
def popMin : List PQItem → Option (PQItem × List PQItem)
  | [] => none
  | x :: xs => some (selectMin x xs)

/-- Result record of `astar` (`time` omitted: wall-clock only). -/
structure AResult where
  moves : Int
  path : List String
  boards : List Board
  expanded : Nat
  max_frontier : Nat
deriving DecidableEq

/-- Mutable state of the `astar` main loop: the frontier, the best-known-cost
map and parent map (association lists with leftmost binding the current one),
and the two counters. -/
structure SearchState where
  pq : List PQItem
  gBest : List (Board × Int)
  parent : List (Board × (Option Board × Option String))
  expanded : Nat
  maxFrontier : Nat

/-- Dictionary read `d.get(k)`: value at the leftmost binding of k, if any. -/
def alistGet {α : Type} (m : List (Board × α)) (k : Board) : Option α :=
  (m.find? (fun p => p.1 = k)).map Prod.snd

/-- The `for nb, mv in neighbors(n, b)` relaxation loop body of `astar`:
for each child, if the tentative cost improves the recorded best, update
best-cost and parent and push a fresh frontier entry. -/
def relaxChildren (n : Nat) (useH : Bool) (table : List (Nat × Nat)) (g : Int)
    (st : SearchState) (children : List (Board × String)) (b : Board) : SearchState :=
  children.foldl (fun acc child =>
    let nb := child.1
    let ng := g + 1
    let old := alistGet acc.gBest nb
    if old = none ∨ (∃ o, old = some o ∧ ng < o) then
      let nh : Int := if useH then heuristic n nb table else 0
      { acc with
        gBest := (nb, ng) :: acc.gBest
        parent := (nb, (some b, some child.2)) :: acc.parent
        pq := ⟨ng + nh, nh, ng, nb⟩ :: acc.pq }
    else acc) st

instance (old : Option Int) (ng : Int) : Decidable (old = none ∨ (∃ o, old = some o ∧ ng < o)) :=
  match old with
  | none => isTrue (Or.inl rfl)
  | some o =>
    if h : ng < o then
      isTrue (Or.inr ⟨o, rfl, h⟩)
    else
      isFalse (by
        rintro (h1 | ⟨o2, h2, h3⟩)
        · exact Option.noConfusion h1
        · rw [← Option.some_inj.mp h2] at h3
          exact h h3)

/-- `_reconstruct_path` from `search.py`: walk parent links from the goal,
collecting boards and moves, then reverse both (fuel-indexed walk; the walk in
the source ends when the parent link is `None`). -/
def reconstructPath (parent : List (Board × (Option Board × Option String))) :
    Nat → Option Board → List String → List Board → Option (List String × List Board)
  | _, none, moves, boards => some (moves.reverse, boards.reverse)
  | 0, some _, _, _ => none
  | fuel + 1, some node, moves, boards =>
    match alistGet parent node with
    | none => none
    | some (p, mv) =>
      reconstructPath parent fuel p
        (match mv with | none => moves | some m => moves ++ [m]) (boards ++ [node])

/-- The `while pq:` main loop of `astar`, fuel-indexed.  Each iteration pops a
minimal frontier entry, discards it if stale, counts the expansion, tests for
the goal, and otherwise relaxes the children.  An empty frontier raises the
`RuntimeError` of the source; exhausted fuel is a modelling artifact reported
by a distinct error string. -/
def astarLoop (n : Nat) (goal : Board) (useH : Bool) (table : List (Nat × Nat)) :
    Nat → SearchState → Except String AResult
  | 0, _ => .error "out of fuel"
  | fuel + 1, st =>
    match popMin st.pq with
    | none => .error "No solution found (this should not happen if solvable)."
    | some (cur, rest) =>
      let b := cur.board
      if cur.g ≠ (alistGet st.gBest b).getD (10 ^ 18) then
        astarLoop n goal useH table fuel { st with pq := rest }
      else
        let expanded := st.expanded + 1
        let maxFrontier := max st.maxFrontier rest.length
        if b = goal then
          match reconstructPath st.parent (st.parent.length + 1) (some b) [] [] with
          | none => .error "parent chain walk failed"
          | some (moves, boards) =>
            .ok ⟨cur.g, moves, boards, expanded, maxFrontier⟩
        else
          astarLoop n goal useH table fuel
            (relaxChildren n useH table cur.g
              { st with pq := rest, expanded := expanded, maxFrontier := maxFrontier }
              (neighbors n b) b)

/-- `astar n start useH` from `search.py` (fuel-indexed): the trivial
short-circuit when the start is the goal, otherwise the initialized main loop. -/
def astar (n : Nat) (start : Board) (useH : Bool) (fuel : Nat) : Except String AResult :=
  let goal := goal_board n
  if start = goal then
    .ok ⟨0, [], [start], 0, 0⟩
  else
    let table := build_goal_positions n
    let h0 : Int := if useH then heuristic n start table else 0
    astarLoop n goal useH table fuel
      ⟨[⟨h0, h0, 0, start⟩], [(start, 0)], [(start, (none, none))], 0, 0⟩

/-- Spec-side inversion count (claim C2 wording): the number of pairs of
non-blank values where the earlier value in row-major order exceeds the later
one.  To be compared with the implementation's `inversion_count`. -/
def specInversions : List Nat → Nat
  | [] => 0
  | x :: xs => (if x ≠ 0 then xs.countP (fun y => y ≠ 0 ∧ y < x) else 0) + specInversions xs

/-- Spec-side conflict count for one goal-aligned line (claim C6 wording): the
number of index pairs (i, j) with i < j whose goal coordinates are out of
relative order. -/
def specLineConf (key : Nat → Nat) (l : List Nat) : Nat :=
  ((Finset.range l.length ×ˢ Finset.range l.length).filter
    (fun p => p.1 < p.2 ∧ key (l.getD p.2 0) < key (l.getD p.1 0))).card

/-- Spec-side total conflict-pair count (claim C6 wording): over every row the
pairs of goal-row-aligned tiles out of relative goal-column order, and
symmetrically over every column. -/
def specConflictPairs (n : Nat) (b : Board) (gp : List (Nat × Nat)) : Nat :=
  (Finset.range n).sum (fun r => specLineConf (fun v => (gp.getD v (0, 0)).2) (row_tiles n b gp r)) +
  (Finset.range n).sum (fun c => specLineConf (fun v => (gp.getD v (0, 0)).1) (col_tiles n b gp c))

/-- The board (0,8,7,6,5,4,3,2,1): every tile line fully reversed.  The
heuristic claims at least 32 moves here, yet 28 suffice. -/
def revBoard : Board := [0, 8, 7, 6, 5, 4, 3, 2, 1]

/-- A 28-move solution of `revBoard`, checked move by move through
`neighbors`. -/
def revPath : List String :=
  ["D", "D", "R", "R", "U", "U", "L", "L", "D", "D", "R", "R", "U", "U",
   "L", "L", "D", "D", "R", "R", "U", "U", "L", "L", "D", "D", "R", "R"]

/-- Invariant carried through the search loop for claim C10: every board in
the frontier is a permutation of R, and every parent-map entry has a key and
(when present) a recorded parent board that are permutations of R. -/
def InvState (R : Board) (st : SearchState) : Prop :=
  (∀ it ∈ st.pq, it.board.Perm R) ∧
  (∀ p ∈ st.parent, p.1.Perm R ∧ ∀ q : Board, p.2.1 = some q → q.Perm R)

theorem pyListLt_trans {a b c : List Nat} (hab : pyListLt a b) (hbc : pyListLt b c) :
    pyListLt a c := by
  induction a generalizing b c with
  | nil =>
    cases b with
    | nil => exact absurd hab id
    | cons y ys =>
      cases c with
      | nil => exact absurd hbc id
      | cons z zs => trivial
  | cons x xs ih =>
    cases b with
    | nil => exact absurd hab id
    | cons y ys =>
      cases c with
      | nil => exact absurd hbc id
      | cons z zs =>
        rcases hab with h1 | ⟨he1, h1⟩ <;> rcases hbc with h2 | ⟨he2, h2⟩
        · exact Or.inl (h1.trans h2)
        · exact Or.inl (he2 ▸ h1)
        · exact Or.inl (he1 ▸ h2)
        · exact Or.inr ⟨he1.trans he2, ih h1 h2⟩

theorem pyListLt_irrefl : ∀ (a : List Nat), ¬ pyListLt a a
  | [] => id
  | x :: xs => by
    rintro (h | ⟨-, h⟩)
    · exact lt_irrefl x h
    · exact pyListLt_irrefl xs h

theorem pyListLt_trichotomy : ∀ (a b : List Nat), pyListLt a b ∨ a = b ∨ pyListLt b a
  | [], [] => Or.inr (Or.inl rfl)
  | [], _ :: _ => Or.inl trivial
  | _ :: _, [] => Or.inr (Or.inr trivial)
  | x :: xs, y :: ys => by
    rcases lt_trichotomy x y with h | h | h
    · exact Or.inl (Or.inl h)
    · rcases pyListLt_trichotomy xs ys with h2 | h2 | h2
      · exact Or.inl (Or.inr ⟨h, h2⟩)
      · exact Or.inr (Or.inl (by rw [h, h2]))
      · exact Or.inr (Or.inr (Or.inr ⟨h.symm, h2⟩))
    · exact Or.inr (Or.inr (Or.inl h))

theorem itemLt_trans {a b c : PQItem} (hab : itemLt a b) (hbc : itemLt b c) : itemLt a c := by
  rcases hab with h1 | ⟨hf1, h1⟩ <;> rcases hbc with h2 | ⟨hf2, h2⟩
  · exact Or.inl (h1.trans h2)
  · exact Or.inl (hf2 ▸ h1)
  · exact Or.inl (hf1 ▸ h2)
  · refine Or.inr ⟨hf1.trans hf2, ?_⟩
    rcases h1 with h1 | ⟨hh1, h1⟩ <;> rcases h2 with h2 | ⟨hh2, h2⟩
    · exact Or.inl (h1.trans h2)
    · exact Or.inl (hh2 ▸ h1)
    · exact Or.inl (hh1 ▸ h2)
    · refine Or.inr ⟨hh1.trans hh2, ?_⟩
      rcases h1 with h1 | ⟨hg1, h1⟩ <;> rcases h2 with h2 | ⟨hg2, h2⟩
      · exact Or.inl (h1.trans h2)
      · exact Or.inl (hg2 ▸ h1)
      · exact Or.inl (hg1 ▸ h2)
      · exact Or.inr ⟨hg1.trans hg2, pyListLt_trans h1 h2⟩

theorem itemLt_irrefl (a : PQItem) : ¬ itemLt a a := by
  rintro (h | ⟨-, h | ⟨-, h | ⟨-, h⟩⟩⟩)
  · exact lt_irrefl _ h
  · exact lt_irrefl _ h
  · exact lt_irrefl _ h
  · exact pyListLt_irrefl _ h

theorem itemLt_trichotomy (a b : PQItem) : itemLt a b ∨ a = b ∨ itemLt b a := by
  rcases lt_trichotomy a.f b.f with h | h | h
  · exact Or.inl (Or.inl h)
  · rcases lt_trichotomy a.h b.h with h2 | h2 | h2
    · exact Or.inl (Or.inr ⟨h, Or.inl h2⟩)
    · rcases lt_trichotomy a.g b.g with h3 | h3 | h3
      · exact Or.inl (Or.inr ⟨h, Or.inr ⟨h2, Or.inl h3⟩⟩)
      · rcases pyListLt_trichotomy a.board b.board with h4 | h4 | h4
        · exact Or.inl (Or.inr ⟨h, Or.inr ⟨h2, Or.inr ⟨h3, h4⟩⟩⟩)
        · refine Or.inr (Or.inl ?_)
          cases a; cases b
          simp only at h h2 h3 h4
          simp [h, h2, h3, h4]
        · exact Or.inr (Or.inr (Or.inr ⟨h.symm, Or.inr ⟨h2.symm, Or.inr ⟨h3.symm, h4⟩⟩⟩))
      · exact Or.inr (Or.inr (Or.inr ⟨h.symm, Or.inr ⟨h2.symm, Or.inl h3⟩⟩))
    · exact Or.inr (Or.inr (Or.inr ⟨h.symm, Or.inl h2⟩))
  · exact Or.inr (Or.inr (Or.inl h))

theorem keyLt_imp_itemLt {a b : PQItem} (h : keyLt a b) : itemLt a b := by
  rcases h with h | ⟨hf, h | ⟨hh, h⟩⟩
  · exact Or.inl h
  · exact Or.inr ⟨hf, Or.inl h⟩
  · exact Or.inr ⟨hf, Or.inr ⟨hh, Or.inl h⟩⟩

theorem selectMin_min (x : PQItem) (l : List PQItem) :
    ∀ e ∈ x :: l, ¬ itemLt e (selectMin x l).1 := by
  induction l generalizing x with
  | nil =>
    intro e he
    rcases List.mem_singleton.mp he with rfl
    exact itemLt_irrefl e
  | cons y ys ih =>
    intro e he hlt
    by_cases hyx : itemLt y x
    · have hsel : (selectMin x (y :: ys)).1 = (selectMin y ys).1 := by
        simp [selectMin, if_pos hyx]
      rw [hsel] at hlt
      rcases List.mem_cons.mp he with heq | he
      · subst heq
        exact ih y y (List.mem_cons_self _ _) (itemLt_trans hyx hlt)
      · exact ih y e he hlt
    · have hsel : (selectMin x (y :: ys)).1 = (selectMin x ys).1 := by
        simp [selectMin, if_neg hyx]
      rw [hsel] at hlt
      rcases List.mem_cons.mp he with heq | he
      · subst heq
        exact ih e e (List.mem_cons_self _ _) hlt
      · rcases List.mem_cons.mp he with heq | he
        · subst heq
          rcases itemLt_trichotomy x e with h | h | h
          · exact ih x x (List.mem_cons_self _ _) (itemLt_trans h hlt)
          · rw [← h] at hlt
            exact ih x x (List.mem_cons_self _ _) hlt
          · exact hyx h
        · exact ih x e (List.mem_cons_of_mem _ he) hlt

theorem selectMin_perm (x : PQItem) (l : List PQItem) :
    (x :: l).Perm ((selectMin x l).1 :: (selectMin x l).2) := by
  induction l generalizing x with
  | nil => simp [selectMin]
  | cons y ys ih =>
    by_cases hyx : itemLt y x
    · have e1 : (selectMin x (y :: ys)).1 = (selectMin y ys).1 := by
        simp [selectMin, if_pos hyx]
      have e2 : (selectMin x (y :: ys)).2 = x :: (selectMin y ys).2 := by
        simp [selectMin, if_pos hyx]
      rw [e1, e2]
      exact List.Perm.trans ((ih y).cons x) (List.Perm.swap _ _ _)
    · have e1 : (selectMin x (y :: ys)).1 = (selectMin x ys).1 := by
        simp [selectMin, if_neg hyx]
      have e2 : (selectMin x (y :: ys)).2 = y :: (selectMin x ys).2 := by
        simp [selectMin, if_neg hyx]
      rw [e1, e2]
      exact List.Perm.trans (List.Perm.swap _ _ _)
        (List.Perm.trans ((ih x).cons y) (List.Perm.swap _ _ _))

theorem popMin_mem {pq : List PQItem} {cur : PQItem} {rest : List PQItem}
    (h : popMin pq = some (cur, rest)) : cur ∈ pq := by
  cases pq with
  | nil => exact absurd h (by simp [popMin])
  | cons x xs =>
    simp only [popMin, Option.some_inj] at h
    have h1 : (selectMin x xs).1 = cur := by rw [h]
    have hperm := selectMin_perm x xs
    rw [h1] at hperm
    exact hperm.symm.subset (List.mem_cons_self _ _)

theorem popMin_min {pq : List PQItem} {cur : PQItem} {rest : List PQItem}
    (h : popMin pq = some (cur, rest)) : ∀ e ∈ pq, ¬ itemLt e cur := by
  cases pq with
  | nil => exact absurd h (by simp [popMin])
  | cons x xs =>
    simp only [popMin, Option.some_inj] at h
    have h1 : (selectMin x xs).1 = cur := by rw [h]
    rw [← h1]
    exact selectMin_min x xs

theorem popMin_rest_perm {pq : List PQItem} {cur : PQItem} {rest : List PQItem}
    (h : popMin pq = some (cur, rest)) : pq.Perm (cur :: rest) := by
  cases pq with
  | nil => exact absurd h (by simp [popMin])
  | cons x xs =>
    simp only [popMin, Option.some_inj] at h
    have h1 : (selectMin x xs).1 = cur := by rw [h]
    have h2 : (selectMin x xs).2 = rest := by rw [h]
    have hperm := selectMin_perm x xs
    rw [h1, h2] at hperm
    exact hperm

example : linear_conflict 3 [2, 1, 3, 4, 5, 6, 7, 8, 0] (build_goal_positions 3) = 2 := by decide
example : heuristic 3 (goal_board 3) (build_goal_positions 3) = 0 := by decide
example : is_solvable 3 [1, 2, 3, 4, 5, 6, 7, 8, 0] = true := by decide
example : is_solvable 3 [1, 2, 3, 4, 5, 6, 8, 7, 0] = false := by decide
example : is_solvable 4 [1, 2, 3, 4, 5, 6, 7, 8, 9, 10, 11, 12, 13, 15, 14, 0] = false := by decide
example : (neighbors 3 [1, 2, 3, 4, 5, 6, 7, 0, 8]).map Prod.snd = ["U", "L", "R"] := by decide

/-- C4: frontier entries are popped in ascending order of the key (f, then h,
then g).  `popMin` (the frontier pop of the `astar` main loop) returns an entry
of the frontier, and no entry simultaneously in the frontier has a strictly
smaller (f, h, g) key under the stated tie-break order — smaller f first, then
smaller h among equal f, then smaller g among equal f and h; hence of any two
entries simultaneously in the frontier the smaller-keyed one is popped first. -/
theorem frontier_pop_in_key_order (pq : List PQItem) (cur : PQItem) (rest : List PQItem)
    (hpop : popMin pq = some (cur, rest)) :
    cur ∈ pq ∧ ∀ x ∈ pq, ¬ keyLt x cur :=
  ⟨popMin_mem hpop, fun x hx hk => popMin_min hpop x hx (keyLt_imp_itemLt hk)⟩

/-- Witness for C4 at a concrete three-entry frontier. -/
theorem frontier_pop_in_key_order_witness :
    (⟨2, 1, 1, [2]⟩ : PQItem) ∈ [⟨3, 2, 1, [1]⟩, ⟨2, 1, 1, [2]⟩, ⟨2, 2, 0, [3]⟩] ∧
    ∀ x ∈ ([⟨3, 2, 1, [1]⟩, ⟨2, 1, 1, [2]⟩, ⟨2, 2, 0, [3]⟩] : List PQItem),
      ¬ keyLt x ⟨2, 1, 1, [2]⟩ :=
  frontier_pop_in_key_order [⟨3, 2, 1, [1]⟩, ⟨2, 1, 1, [2]⟩, ⟨2, 2, 0, [3]⟩]
    ⟨2, 1, 1, [2]⟩ [⟨3, 2, 1, [1]⟩, ⟨2, 2, 0, [3]⟩] (by decide)

/-- C9: `astar` is deterministic apart from timing.  In this pure embedding the
run is a function of (n, start, use_heuristic) by construction (the wall-clock
`time` field is the one output not modelled); the substantive content is that
the frontier order, tie-broken by the board tuples, is total on distinct
entries, so the minimal entry is unique and the pop order is fully determined
by the frontier contents: any itemLt-minimal entry is exactly the popped one.
Consequently two invocations with the same arguments agree on the moves, path,
boards, expanded and max_frontier fields. -/
theorem astar_deterministic :
    (∀ a b : PQItem, a ≠ b → itemLt a b ∨ itemLt b a) ∧
    (∀ (pq : List PQItem) (cur : PQItem) (rest : List PQItem),
      popMin pq = some (cur, rest) →
      ∀ x ∈ pq, (∀ e ∈ pq, ¬ itemLt e x) → x = cur) ∧
    (∀ (n : Nat) (start : Board) (useH : Bool) (fuel : Nat) (r1 r2 : AResult),
      astar n start useH fuel = .ok r1 → astar n start useH fuel = .ok r2 →
      r1.moves = r2.moves ∧ r1.path = r2.path ∧ r1.boards = r2.boards ∧
      r1.expanded = r2.expanded ∧ r1.max_frontier = r2.max_frontier) := by
  refine ⟨?_, ?_, ?_⟩
  · intro a b hne
    rcases itemLt_trichotomy a b with h | h | h
    · exact Or.inl h
    · exact absurd h hne
    · exact Or.inr h
  · intro pq cur rest hpop x hx hmin
    rcases itemLt_trichotomy x cur with h | h | h
    · exact absurd h (popMin_min hpop x hx)
    · exact h
    · exact absurd h (hmin cur (popMin_mem hpop))
  · intro n start useH fuel r1 r2 h1 h2
    rw [h1] at h2
    cases Except.ok.injEq .. ▸ h2
    exact ⟨rfl, rfl, rfl, rfl, rfl⟩

/-- Witness for C9 at concrete items and a concrete frontier. -/
theorem astar_deterministic_witness :
    (itemLt ⟨0, 0, 0, [1, 2]⟩ ⟨0, 0, 1, [1, 2]⟩ ∨ itemLt ⟨0, 0, 1, [1, 2]⟩ ⟨0, 0, 0, [1, 2]⟩) ∧
    ((⟨2, 1, 1, [2]⟩ : PQItem) = ⟨2, 1, 1, [2]⟩) :=
  ⟨astar_deterministic.1 ⟨0, 0, 0, [1, 2]⟩ ⟨0, 0, 1, [1, 2]⟩ (by decide),
   astar_deterministic.2.1 [⟨3, 2, 1, [1]⟩, ⟨2, 1, 1, [2]⟩, ⟨2, 2, 0, [3]⟩]
     ⟨2, 1, 1, [2]⟩ [⟨3, 2, 1, [1]⟩, ⟨2, 2, 0, [3]⟩] (by decide)
     ⟨2, 1, 1, [2]⟩ (by decide) (by decide)⟩

theorem specInversions_eq_inversion_count (l : List Nat) :
    specInversions l = inversion_count l := by
  unfold inversion_count
  induction l with
  | nil => rfl
  | cons x xs ih =>
    by_cases hx : x = 0
    · subst hx
      simpa [specInversions, List.filter_cons, countInv] using ih
    · simp only [specInversions, List.filter_cons, hx, if_pos, countInv, ih,
        decide_not, if_neg, decide_eq_true_eq, ite_not, Bool.not_eq_true]
      rw [List.countP_filter]
      have hcount : List.countP (fun y => !decide (y = 0) && decide (y < x)) xs
          = List.countP (fun a => decide (a < x) && !decide (a = 0)) xs := by
        refine List.countP_congr (fun y _ => ?_)
        rw [Bool.and_comm]
      simp [hcount]

/-- C2: `is_solvable` is (in this pure embedding, by construction) a function
of (n, state) alone, and it decides by the stated parity rule: with inversions
the number of pairs of non-blank values where the earlier value in row-major
order exceeds the later one, odd n is solvable iff the inversions are even;
for even n, with blank_row_from_bottom = n minus the blank's 0-based row
index, solvable iff that value is even and inversions odd, or that value odd
and inversions even. -/
theorem is_solvable_parity_rule (n : Nat) (b : Board) (hb : (0 : Nat) ∈ b) :
    is_solvable n b = true ↔
      (if Odd n then Even (specInversions b)
       else (Even (n - b.indexOf 0 / n) ∧ Odd (specInversions b)) ∨
            (Odd (n - b.indexOf 0 / n) ∧ Even (specInversions b))) := by
  rw [specInversions_eq_inversion_count]
  by_cases hodd : n % 2 = 1
  · simp [is_solvable, hodd, Nat.odd_iff, Nat.even_iff]
  · by_cases hbr : (n - b.indexOf 0 / n) % 2 = 0 <;>
      simp [is_solvable, hodd, hbr, Nat.odd_iff, Nat.even_iff] <;> omega

/-- Witness for C2: the solvable goal-adjacent board and n=3. -/
theorem is_solvable_parity_rule_witness :
    is_solvable 3 [1, 2, 3, 4, 5, 6, 8, 7, 0] = true ↔
      (if Odd 3 then Even (specInversions [1, 2, 3, 4, 5, 6, 8, 7, 0])
       else (Even (3 - [1, 2, 3, 4, 5, 6, 8, 7, 0].indexOf 0 / 3) ∧
              Odd (specInversions [1, 2, 3, 4, 5, 6, 8, 7, 0])) ∨
            (Odd (3 - [1, 2, 3, 4, 5, 6, 8, 7, 0].indexOf 0 / 3) ∧
              Even (specInversions [1, 2, 3, 4, 5, 6, 8, 7, 0]))) :=
  is_solvable_parity_rule 3 [1, 2, 3, 4, 5, 6, 8, 7, 0] (by decide)

theorem countP_eq_sum_range (p : Nat → Bool) (l : List Nat) :
    l.countP p = (Finset.range l.length).sum (fun j => if p (l.getD j 0) then 1 else 0) := by
  induction l with
  | nil => simp
  | cons x xs ih =>
    rw [List.countP_cons, List.length_cons, Finset.sum_range_succ']
    simp only [List.getD_cons_succ, List.getD_cons_zero, ih]

theorem specLineConf_eq_sum (key : Nat → Nat) (l : List Nat) :
    specLineConf key l =
      (Finset.range l.length).sum (fun i => (Finset.range l.length).sum (fun j =>
        if i < j ∧ key (l.getD j 0) < key (l.getD i 0) then 1 else 0)) := by
  unfold specLineConf
  rw [Finset.card_filter, Finset.sum_product]

theorem pairConf_eq_specLineConf (key : Nat → Nat) (l : List Nat) :
    pairConf key l = specLineConf key l := by
  induction l with
  | nil => simp [pairConf, specLineConf]
  | cons x xs ih =>
    have inner1 : ∀ i, (Finset.range (xs.length + 1)).sum (fun j =>
        if i + 1 < j ∧ key ((x :: xs).getD j 0) < key ((x :: xs).getD (i + 1) 0) then 1 else 0)
        = (Finset.range xs.length).sum (fun j =>
          if i < j ∧ key (xs.getD j 0) < key (xs.getD i 0) then 1 else 0) := by
      intro i
      rw [Finset.sum_range_succ']
      simp [Nat.succ_lt_succ_iff]
    have inner0 : (Finset.range (xs.length + 1)).sum (fun j =>
        if 0 < j ∧ key ((x :: xs).getD j 0) < key ((x :: xs).getD 0 0) then 1 else 0)
        = xs.countP (fun y => key y < key x) := by
      rw [Finset.sum_range_succ', countP_eq_sum_range]
      simp
    have expand : specLineConf key (x :: xs) =
        (Finset.range xs.length).sum (fun i => (Finset.range (xs.length + 1)).sum (fun j =>
          if i + 1 < j ∧ key ((x :: xs).getD j 0) < key ((x :: xs).getD (i + 1) 0) then 1 else 0))
        + (Finset.range (xs.length + 1)).sum (fun j =>
          if 0 < j ∧ key ((x :: xs).getD j 0) < key ((x :: xs).getD 0 0) then 1 else 0) := by
      rw [specLineConf_eq_sum, List.length_cons, Finset.sum_range_succ']
    rw [expand, Finset.sum_congr rfl (fun i _ => inner1 i), inner0]
    show xs.countP (fun y => key y < key x) + pairConf key xs = _
    rw [ih, specLineConf_eq_sum]
    exact Nat.add_comm _ _

theorem list_range_map_sum (f : Nat → Nat) (n : Nat) :
    ((List.range n).map f).sum = (Finset.range n).sum f := by
  induction n with
  | zero => simp
  | succ m ih => rw [List.range_succ, List.map_append, List.sum_append, Finset.sum_range_succ, ih]; simp

/-- C6: `linear_conflict` equals 2 times the number of pairs of tiles lying in
their goal line (rows taken left-to-right and compared by goal column, columns
taken top-to-bottom and compared by goal row) that appear out of relative goal
order; and on the n=3 single-swap example (2,1,3,4,5,6,7,8,0) it returns
exactly 2. -/
theorem linear_conflict_counts_conflict_pairs (n : Nat) (b : Board) (gp : List (Nat × Nat)) :
    linear_conflict n b gp = 2 * specConflictPairs n b gp ∧
    linear_conflict 3 [2, 1, 3, 4, 5, 6, 7, 8, 0] (build_goal_positions 3) = 2 := by
  constructor
  · unfold linear_conflict specConflictPairs
    simp only [pairConf_eq_specLineConf]
    rw [list_range_map_sum, list_range_map_sum, ← Finset.mul_sum, ← Finset.mul_sum]
    push_cast
    ring
  · decide

theorem mem_ite_singleton {α : Type} (c : Prop) [Decidable c] (x a : α) :
    a ∈ (if c then [x] else []) ↔ c ∧ a = x := by
  split_ifs with h <;> simp [h]

theorem neighbors_mem_iff (n : Nat) (b b2 : Board) (mv : String) :
    (b2, mv) ∈ neighbors n b ↔
      ((mv = "U" ∧ 0 < b.indexOf 0 / n ∧ b2 = swapCells b (b.indexOf 0) (b.indexOf 0 - n)) ∨
       (mv = "D" ∧ b.indexOf 0 / n < n - 1 ∧ b2 = swapCells b (b.indexOf 0) (b.indexOf 0 + n)) ∨
       (mv = "L" ∧ 0 < b.indexOf 0 % n ∧ b2 = swapCells b (b.indexOf 0) (b.indexOf 0 - 1)) ∨
       (mv = "R" ∧ b.indexOf 0 % n < n - 1 ∧ b2 = swapCells b (b.indexOf 0) (b.indexOf 0 + 1))) := by
  simp only [neighbors, List.mem_append, mem_ite_singleton, Prod.mk.injEq]
  tauto

theorem neighbors_labels_nodup (n : Nat) (b : Board) :
    ((neighbors n b).map Prod.snd).Nodup := by
  simp only [neighbors]
  split_ifs <;> simp

theorem neighbors_length_class (n : Nat) (b : Board) (hn : 2 ≤ n)
    (hz : b.indexOf 0 < n * n) :
    (neighbors n b).length =
      if (b.indexOf 0 / n = 0 ∨ b.indexOf 0 / n = n - 1) ∧
         (b.indexOf 0 % n = 0 ∨ b.indexOf 0 % n = n - 1) then 2
      else if 0 < b.indexOf 0 / n ∧ b.indexOf 0 / n < n - 1 ∧
              0 < b.indexOf 0 % n ∧ b.indexOf 0 % n < n - 1 then 4
      else 3 := by
  have hzr : b.indexOf 0 / n < n := Nat.div_lt_of_lt_mul (by rw [Nat.mul_comm] at hz; exact hz)
  have hzc : b.indexOf 0 % n < n := Nat.mod_lt _ (by omega)
  simp only [neighbors, List.length_append]
  split_ifs <;> simp_all <;> omega

/-- C7: `neighbors` emits exactly one entry per legal blank direction.  With z
the blank's flat index, zr = z / n its row, zc = z % n its column: an entry
(b2, mv) is emitted exactly when mv is a legal direction (U iff zr > 0, D iff
zr < n-1, L iff zc > 0, R iff zc < n-1) and b2 is the input board with the
blank swapped with the adjacent cell in that direction (index z-n, z+n, z-1,
z+1 respectively); the move labels are pairwise distinct elements of
{U, D, L, R}; and the number of entries is 2 for a corner blank, 4 for an
interior blank, and 3 otherwise (a non-corner edge cell). -/
theorem neighbors_one_entry_per_direction (n : Nat) (b : Board) (hn : 2 ≤ n)
    (hlen : b.length = n * n) (hb : (0 : Nat) ∈ b) :
    (∀ b2 mv, (b2, mv) ∈ neighbors n b ↔
      ((mv = "U" ∧ 0 < b.indexOf 0 / n ∧ b2 = swapCells b (b.indexOf 0) (b.indexOf 0 - n)) ∨
       (mv = "D" ∧ b.indexOf 0 / n < n - 1 ∧ b2 = swapCells b (b.indexOf 0) (b.indexOf 0 + n)) ∨
       (mv = "L" ∧ 0 < b.indexOf 0 % n ∧ b2 = swapCells b (b.indexOf 0) (b.indexOf 0 - 1)) ∨
       (mv = "R" ∧ b.indexOf 0 % n < n - 1 ∧ b2 = swapCells b (b.indexOf 0) (b.indexOf 0 + 1)))) ∧
    ((neighbors n b).map Prod.snd).Nodup ∧
    (neighbors n b).length =
      (if (b.indexOf 0 / n = 0 ∨ b.indexOf 0 / n = n - 1) ∧
          (b.indexOf 0 % n = 0 ∨ b.indexOf 0 % n = n - 1) then 2
       else if 0 < b.indexOf 0 / n ∧ b.indexOf 0 / n < n - 1 ∧
               0 < b.indexOf 0 % n ∧ b.indexOf 0 % n < n - 1 then 4
       else 3) := by
  refine ⟨fun b2 mv => neighbors_mem_iff n b b2 mv, neighbors_labels_nodup n b, ?_⟩
  have hz : b.indexOf 0 < n * n := by
    rw [← hlen]
    exact List.indexOf_lt_length.mpr hb
  exact neighbors_length_class n b hn hz

/-- Witness for C7 at n=3 with the blank on a non-corner edge cell. -/
theorem neighbors_one_entry_per_direction_witness :
    (∀ b2 mv, (b2, mv) ∈ neighbors 3 [1, 2, 3, 4, 5, 6, 7, 0, 8] ↔
      ((mv = "U" ∧ 0 < [1, 2, 3, 4, 5, 6, 7, 0, 8].indexOf 0 / 3 ∧
         b2 = swapCells [1, 2, 3, 4, 5, 6, 7, 0, 8] ([1, 2, 3, 4, 5, 6, 7, 0, 8].indexOf 0)
           ([1, 2, 3, 4, 5, 6, 7, 0, 8].indexOf 0 - 3)) ∨
       (mv = "D" ∧ [1, 2, 3, 4, 5, 6, 7, 0, 8].indexOf 0 / 3 < 3 - 1 ∧
         b2 = swapCells [1, 2, 3, 4, 5, 6, 7, 0, 8] ([1, 2, 3, 4, 5, 6, 7, 0, 8].indexOf 0)
           ([1, 2, 3, 4, 5, 6, 7, 0, 8].indexOf 0 + 3)) ∨
       (mv = "L" ∧ 0 < [1, 2, 3, 4, 5, 6, 7, 0, 8].indexOf 0 % 3 ∧
         b2 = swapCells [1, 2, 3, 4, 5, 6, 7, 0, 8] ([1, 2, 3, 4, 5, 6, 7, 0, 8].indexOf 0)
           ([1, 2, 3, 4, 5, 6, 7, 0, 8].indexOf 0 - 1)) ∨
       (mv = "R" ∧ [1, 2, 3, 4, 5, 6, 7, 0, 8].indexOf 0 % 3 < 3 - 1 ∧
         b2 = swapCells [1, 2, 3, 4, 5, 6, 7, 0, 8] ([1, 2, 3, 4, 5, 6, 7, 0, 8].indexOf 0)
           ([1, 2, 3, 4, 5, 6, 7, 0, 8].indexOf 0 + 1)))) ∧
    ((neighbors 3 [1, 2, 3, 4, 5, 6, 7, 0, 8]).map Prod.snd).Nodup ∧
    (neighbors 3 [1, 2, 3, 4, 5, 6, 7, 0, 8]).length =
      (if ([1, 2, 3, 4, 5, 6, 7, 0, 8].indexOf 0 / 3 = 0 ∨
           [1, 2, 3, 4, 5, 6, 7, 0, 8].indexOf 0 / 3 = 3 - 1) ∧
          ([1, 2, 3, 4, 5, 6, 7, 0, 8].indexOf 0 % 3 = 0 ∨
           [1, 2, 3, 4, 5, 6, 7, 0, 8].indexOf 0 % 3 = 3 - 1) then 2
       else if 0 < [1, 2, 3, 4, 5, 6, 7, 0, 8].indexOf 0 / 3 ∧
               [1, 2, 3, 4, 5, 6, 7, 0, 8].indexOf 0 / 3 < 3 - 1 ∧
               0 < [1, 2, 3, 4, 5, 6, 7, 0, 8].indexOf 0 % 3 ∧
               [1, 2, 3, 4, 5, 6, 7, 0, 8].indexOf 0 % 3 < 3 - 1 then 4
       else 3) :=
  neighbors_one_entry_per_direction 3 [1, 2, 3, 4, 5, 6, 7, 0, 8]
    (by decide) (by decide) (by decide)

theorem swapCells_perm (b : Board) (i j : Nat) (hi : i < b.length) (hj : j < b.length) :
    (swapCells b i j).Perm b := by
  rw [List.perm_iff_count]
  intro a
  unfold swapCells
  have hj2 : j < (b.set i (b.getD j 0)).length := by simpa using hj
  rw [List.count_set _ _ _ _ hj2, List.count_set _ _ _ _ hi]
  have hci : b[i] = a → 0 < List.count a b := fun h =>
    List.count_pos_iff_mem.mpr (h ▸ List.getElem_mem hi)
  have hcj : b[j] = a → 0 < List.count a b := fun h =>
    List.count_pos_iff_mem.mpr (h ▸ List.getElem_mem hj)
  by_cases hij : i = j
  · subst hij
    rw [List.getElem_set_eq hj2]
    simp only [List.getD_eq_getElem b 0 hj]
    by_cases h2 : b[i] = a <;> simp [h2] <;>
      first
      | omega
      | (have h9 := hci (by assumption); omega)
  · rw [List.getElem_set_ne hij hj2]
    simp only [List.getD_eq_getElem b 0 hj, List.getD_eq_getElem b 0 hi]
    by_cases h2 : b[i] = a <;> by_cases h3 : b[j] = a <;> simp [h2, h3] <;>
      first
      | omega
      | (have h9 := hci (by assumption); omega)
      | (have h9 := hcj (by assumption); omega)

theorem swapCells_cells (b : Board) (i j : Nat) (hi : i < b.length) (hj : j < b.length) :
    (swapCells b i j).length = b.length ∧
    (swapCells b i j).getD i 0 = b.getD j 0 ∧
    (swapCells b i j).getD j 0 = b.getD i 0 ∧
    ∀ k, k ≠ i → k ≠ j → (swapCells b i j).getD k 0 = b.getD k 0 := by
  unfold swapCells
  have hlen : ((b.set i (b.getD j 0)).set j (b.getD i 0)).length = b.length := by simp
  refine ⟨hlen, ?_, ?_, ?_⟩
  · by_cases hij : i = j
    · subst hij
      rw [List.getD_eq_getElem _ 0 (by simpa using hi), List.getElem_set_eq (by simpa using hi)]
    · rw [List.getD_eq_getElem _ 0 (by simpa using hi),
        List.getElem_set_ne (fun h => hij h.symm) (by simpa using hi),
        List.getElem_set_eq (by simpa using hi), List.getD_eq_getElem b 0 hj]
  · rw [List.getD_eq_getElem _ 0 (by simpa using hj), List.getElem_set_eq (by simpa using hj),
      List.getD_eq_getElem b 0 hi]
  · intro k hki hkj
    by_cases hk : k < b.length
    · rw [List.getD_eq_getElem _ 0 (by simpa using hk),
        List.getElem_set_ne (fun h => hkj h.symm) (by simpa using hk),
        List.getElem_set_ne (fun h => hki h.symm) (by simpa using hk),
        List.getD_eq_getElem b 0 hk]
    · rw [List.getD_eq_default _ 0 (by simpa using Nat.le_of_not_lt hk),
        List.getD_eq_default _ 0 (Nat.le_of_not_lt hk)]

theorem target_lt_of_D {n z : Nat} (hz : z < n * n) (hd : z / n < n - 1) : z + n < n * n := by
  have e1 := Nat.div_add_mod z n
  have hn : 0 < n := by
    rcases Nat.eq_zero_or_pos n with h | h
    · subst h
      simp at hz
    · exact h
  have e2 : z % n < n := Nat.mod_lt _ hn
  have e3 : z / n + 2 ≤ n := by omega
  have e4 : n * (z / n + 2) ≤ n * n := Nat.mul_le_mul_left n e3
  have e5 : n * (z / n + 2) = n * (z / n) + 2 * n := by ring
  omega

theorem target_lt_of_R {n z : Nat} (hz : z < n * n) (hr : z % n < n - 1) : z + 1 < n * n := by
  have e1 := Nat.div_add_mod z n
  have hn : 0 < n := by
    rcases Nat.eq_zero_or_pos n with h | h
    · subst h
      simp at hz
    · exact h
  have e2 : z % n < n := Nat.mod_lt _ hn
  have e3 : z / n + 1 ≤ n := Nat.div_lt_of_lt_mul (by rw [Nat.mul_comm] at hz; exact hz)
  have e4 : n * (z / n + 1) ≤ n * n := Nat.mul_le_mul_left n e3
  have e5 : n * (z / n + 1) = n * (z / n) + n := by ring
  omega

theorem neighbors_board_perm (n : Nat) (b : Board) (hb : b.Perm (List.range (n * n)))
    (hn : 0 < n) : ∀ p ∈ neighbors n b, p.1.Perm (List.range (n * n)) := by
  intro p hp
  have hlen : b.length = n * n := by
    have := hb.length_eq
    simpa using this
  have h0 : (0 : Nat) ∈ b := hb.mem_iff.mpr (List.mem_range.mpr (by positivity))
  have hz : b.indexOf 0 < b.length := List.indexOf_lt_length.mpr h0
  rcases p with ⟨b2, mv⟩
  rcases (neighbors_mem_iff n b b2 mv).mp hp with ⟨-, hc, rfl⟩ | ⟨-, hc, rfl⟩ | ⟨-, hc, rfl⟩ | ⟨-, hc, rfl⟩
  · exact ((swapCells_perm b _ _ hz (by omega)).trans hb)
  · refine (swapCells_perm b _ _ hz ?_).trans hb
    rw [hlen]
    exact target_lt_of_D (hlen ▸ hz) hc
  · exact ((swapCells_perm b _ _ hz (by omega)).trans hb)
  · refine (swapCells_perm b _ _ hz ?_).trans hb
    rw [hlen]
    exact target_lt_of_R (hlen ▸ hz) hc

theorem alistGet_some_mem {α : Type} {m : List (Board × α)} {k : Board} {v : α}
    (h : alistGet m k = some v) : ∃ p ∈ m, p.1 = k ∧ p.2 = v := by
  unfold alistGet at h
  rcases hfind : m.find? (fun p => p.1 = k) with _ | p
  · rw [hfind] at h
    simp at h
  · rw [hfind] at h
    simp only [Option.map_some', Option.some_inj] at h
    have hmem := List.mem_of_find?_eq_some hfind
    have hpred := List.find?_some hfind
    simp only [decide_eq_true_eq] at hpred
    exact ⟨p, hmem, hpred, h⟩

theorem reconstructPath_boards_perm (R : Board)
    (parent : List (Board × (Option Board × Option String)))
    (hpar : ∀ p ∈ parent, p.1.Perm R ∧ ∀ q : Board, p.2.1 = some q → q.Perm R) :
    ∀ (fuel : Nat) (node : Option Board) (moves : List String) (boards : List Board)
      (res : List String × List Board),
      (∀ q : Board, node = some q → q.Perm R) →
      (∀ bb ∈ boards, bb.Perm R) →
      reconstructPath parent fuel node moves boards = some res →
      ∀ bb ∈ res.2, bb.Perm R := by
  intro fuel
  induction fuel with
  | zero =>
    intro node moves boards res hnode hboards hres
    cases node with
    | none =>
      simp only [reconstructPath, Option.some_inj] at hres
      subst hres
      intro bb hbb
      exact hboards bb (List.mem_reverse.mp hbb)
    | some nd =>
      rw [reconstructPath] at hres
      exact Option.noConfusion hres
  | succ fuel ih =>
    intro node moves boards res hnode hboards hres
    cases node with
    | none =>
      simp only [reconstructPath, Option.some_inj] at hres
      subst hres
      intro bb hbb
      exact hboards bb (List.mem_reverse.mp hbb)
    | some nd =>
      rw [reconstructPath] at hres
      rcases hget : alistGet parent nd with _ | pv
      · rw [hget] at hres
        exact absurd hres (by simp)
      · rw [hget] at hres
        rcases pv with ⟨p, mv⟩
        have hnd : nd.Perm R := hnode nd rfl
        obtain ⟨pe, hpe_mem, hpe1, hpe2⟩ := alistGet_some_mem hget
        refine ih p _ _ res ?_ ?_ hres
        · intro q hq
          refine (hpar pe hpe_mem).2 q ?_
          rw [hpe2]
          exact hq
        · intro bb hbb
          rcases List.mem_append.mp hbb with h | h
          · exact hboards bb h
          · rcases List.mem_singleton.mp h with rfl
            exact hnd

theorem foldl_inv {σ α : Type} (P : σ → Prop) (f : σ → α → σ) (Q : α → Prop)
    (hstep : ∀ s a, P s → Q a → P (f s a)) :
    ∀ (l : List α) (s : σ), P s → (∀ a ∈ l, Q a) → P (l.foldl f s) := by
  intro l
  induction l with
  | nil => intro s hs _; exact hs
  | cons a as ih =>
    intro s hs hq
    exact ih (f s a) (hstep s a hs (hq a (List.mem_cons_self _ _)))
      (fun x hx => hq x (List.mem_cons_of_mem _ hx))

theorem relaxChildren_inv (R : Board) (n : Nat) (useH : Bool) (table : List (Nat × Nat))
    (g : Int) (b : Board) (hb : b.Perm R) (children : List (Board × String))
    (st : SearchState) (hst : InvState R st) (hch : ∀ c ∈ children, c.1.Perm R) :
    InvState R (relaxChildren n useH table g st children b) := by
  unfold relaxChildren
  refine foldl_inv (InvState R) _ (fun c => c.1.Perm R) ?_ children st hst hch
  intro s c hs hc
  dsimp only
  by_cases hcond : (alistGet s.gBest c.1 = none ∨ ∃ o, alistGet s.gBest c.1 = some o ∧ g + 1 < o)
  · rw [if_pos hcond]
    constructor
    · intro it hit
      rcases List.mem_cons.mp hit with heq | hmem
      · rw [heq]
        exact hc
      · exact hs.1 it hmem
    · intro pp hpp
      rcases List.mem_cons.mp hpp with heq | hmem
      · rw [heq]
        exact ⟨hc, fun q hq => by rw [← Option.some_inj.mp hq]; exact hb⟩
      · exact hs.2 pp hmem
  · rw [if_neg hcond]
    exact hs

theorem astarLoop_boards_perm (n : Nat) (goal : Board) (useH : Bool)
    (table : List (Nat × Nat)) (hn : 0 < n) :
    ∀ (fuel : Nat) (st : SearchState) (r : AResult),
      InvState (List.range (n * n)) st →
      astarLoop n goal useH table fuel st = .ok r →
      ∀ bb ∈ r.boards, bb.Perm (List.range (n * n)) := by
  intro fuel
  induction fuel with
  | zero =>
    intro st r _ hres
    rw [astarLoop] at hres
    exact Except.noConfusion hres
  | succ fuel ih =>
    intro st r hst hres
    rw [astarLoop] at hres
    rcases hpop : popMin st.pq with _ | ⟨cur, rest⟩
    · rw [hpop] at hres
      exact Except.noConfusion hres
    · rw [hpop] at hres
      dsimp only at hres
      have hrest_inv : InvState (List.range (n * n)) { st with pq := rest } := by
        constructor
        · intro it hit
          exact hst.1 it ((popMin_rest_perm hpop).mem_iff.mpr (List.mem_cons_of_mem _ hit))
        · exact hst.2
      have hcur : cur.board.Perm (List.range (n * n)) := hst.1 cur (popMin_mem hpop)
      by_cases hstale : cur.g ≠ (alistGet st.gBest cur.board).getD (10 ^ 18)
      · rw [if_pos hstale] at hres
        exact ih _ r hrest_inv hres
      · rw [if_neg hstale] at hres
        by_cases hgoal : cur.board = goal
        · rw [if_pos hgoal] at hres
          rcases hrec : reconstructPath st.parent (st.parent.length + 1)
              (some cur.board) [] [] with _ | res
          · rw [hrec] at hres
            exact Except.noConfusion hres
          · rw [hrec] at hres
            have hboards := reconstructPath_boards_perm _ st.parent hst.2
              (st.parent.length + 1) (some cur.board) [] [] res
              (fun q hq => by rw [← Option.some_inj.mp hq]; exact hcur)
              (fun bb hbb => absurd hbb (List.not_mem_nil bb))
              hrec
            cases hres
            exact hboards
        · rw [if_neg hgoal] at hres
          refine ih _ r ?_ hres
          exact relaxChildren_inv _ n useH table cur.g cur.board hcur _ _
            ⟨hrest_inv.1, hrest_inv.2⟩
            (neighbors_board_perm n cur.board hcur hn)

theorem astar_boards_perm (n : Nat) (start : Board) (useH : Bool) (hn : 0 < n)
    (hstart : start.Perm (List.range (n * n))) :
    ∀ (fuel : Nat) (r : AResult), astar n start useH fuel = .ok r →
      ∀ bb ∈ r.boards, bb.Perm (List.range (n * n)) := by
  intro fuel r hres
  unfold astar at hres
  by_cases hgoal : start = goal_board n
  · rw [if_pos hgoal] at hres
    cases hres
    intro bb hbb
    rcases List.mem_singleton.mp hbb with rfl
    exact hstart
  · rw [if_neg hgoal] at hres
    refine astarLoop_boards_perm n (goal_board n) useH (build_goal_positions n) hn fuel _ r
      ?_ hres
    constructor
    · intro it hit
      rcases List.mem_singleton.mp hit with rfl
      exact hstart
    · intro pp hpp
      rcases List.mem_singleton.mp hpp with rfl
      exact ⟨hstart, fun q hq => Option.noConfusion hq⟩

/-- C10: if the input board contains each value of {0, ..., n^2-1} exactly once,
every board emitted by `neighbors` does too; each emitted board is the input
with the blank cell and one other cell exchanged, agreeing with the input
everywhere except those two positions and genuinely differing there (the two
swapped values are distinct); the input board itself is untouched (the
embedding is pure: `neighbors` returns fresh boards built by `swapCells`).
Consequently every board in the `boards` field of a successful `astar` result
is again a permutation of {0, ..., n^2-1}. -/
theorem neighbors_preserve_board_invariant (n : Nat) (b start : Board) (useH : Bool)
    (hn : 0 < n) (hb : b.Perm (List.range (n * n)))
    (hstart : start.Perm (List.range (n * n))) :
    (∀ p ∈ neighbors n b, p.1.Perm (List.range (n * n))) ∧
    (∀ p ∈ neighbors n b, ∃ t, t ≠ b.indexOf 0 ∧ t < b.length ∧
        p.1 = swapCells b (b.indexOf 0) t ∧
        p.1.getD (b.indexOf 0) 0 = b.getD t 0 ∧
        p.1.getD t 0 = b.getD (b.indexOf 0) 0 ∧
        b.getD t 0 ≠ b.getD (b.indexOf 0) 0 ∧
        (∀ k, k ≠ b.indexOf 0 → k ≠ t → p.1.getD k 0 = b.getD k 0)) ∧
    (∀ (fuel : Nat) (r : AResult), astar n start useH fuel = .ok r →
        ∀ bb ∈ r.boards, bb.Perm (List.range (n * n))) := by
  have hlen : b.length = n * n := by simpa using hb.length_eq
  have h0 : (0 : Nat) ∈ b := hb.mem_iff.mpr (List.mem_range.mpr (by positivity))
  have hz : b.indexOf 0 < b.length := List.indexOf_lt_length.mpr h0
  have hnodup : b.Nodup := hb.nodup_iff.mpr (List.nodup_range _)
  refine ⟨neighbors_board_perm n b hb hn, ?_, astar_boards_perm n start useH hn hstart⟩
  have main : ∀ t, t < b.length → t ≠ b.indexOf 0 →
      ∃ t2, t2 ≠ b.indexOf 0 ∧ t2 < b.length ∧
        swapCells b (b.indexOf 0) t = swapCells b (b.indexOf 0) t2 ∧
        (swapCells b (b.indexOf 0) t).getD (b.indexOf 0) 0 = b.getD t2 0 ∧
        (swapCells b (b.indexOf 0) t).getD t2 0 = b.getD (b.indexOf 0) 0 ∧
        b.getD t2 0 ≠ b.getD (b.indexOf 0) 0 ∧
        (∀ k, k ≠ b.indexOf 0 → k ≠ t2 → (swapCells b (b.indexOf 0) t).getD k 0 = b.getD k 0) := by
    intro t ht htne
    obtain ⟨hl, h1, h2, h3⟩ := swapCells_cells b (b.indexOf 0) t hz ht
    refine ⟨t, htne, ht, rfl, h1, h2, ?_, h3⟩
    rw [List.getD_eq_getElem b 0 ht, List.getD_eq_getElem b 0 hz]
    intro heq
    exact htne ((List.Nodup.getElem_inj_iff hnodup).mp heq)
  intro p hp
  rcases p with ⟨b2, mv⟩
  rcases (neighbors_mem_iff n b b2 mv).mp hp with ⟨-, hc, rfl⟩ | ⟨-, hc, rfl⟩ | ⟨-, hc, rfl⟩ | ⟨-, hc, rfl⟩
  · have hge : n ≤ b.indexOf 0 := by
      by_contra hlt
      rw [Nat.div_eq_of_lt (by omega)] at hc
      exact Nat.lt_irrefl 0 hc
    exact main (b.indexOf 0 - n) (by omega) (by omega)
  · have ht : b.indexOf 0 + n < b.length := by
      rw [hlen]
      exact target_lt_of_D (hlen ▸ hz) hc
    exact main (b.indexOf 0 + n) ht (by omega)
  · have hpos : 0 < b.indexOf 0 := by
      rcases Nat.eq_zero_or_pos (b.indexOf 0) with h | h
      · rw [h] at hc
        simp at hc
      · exact h
    exact main (b.indexOf 0 - 1) (by omega) (by omega)
  · have ht : b.indexOf 0 + 1 < b.length := by
      rw [hlen]
      exact target_lt_of_R (hlen ▸ hz) hc
    exact main (b.indexOf 0 + 1) ht (by omega)

/-- Witness for C10 at n=3, a concrete edge-blank board and the goal start. -/
theorem neighbors_preserve_board_invariant_witness :
    (∀ p ∈ neighbors 3 [1, 2, 3, 4, 5, 6, 7, 0, 8], p.1.Perm (List.range (3 * 3))) ∧
    (∀ p ∈ neighbors 3 [1, 2, 3, 4, 5, 6, 7, 0, 8],
      ∃ t, t ≠ [1, 2, 3, 4, 5, 6, 7, 0, 8].indexOf 0 ∧
        t < [1, 2, 3, 4, 5, 6, 7, 0, 8].length ∧
        p.1 = swapCells [1, 2, 3, 4, 5, 6, 7, 0, 8] ([1, 2, 3, 4, 5, 6, 7, 0, 8].indexOf 0) t ∧
        p.1.getD ([1, 2, 3, 4, 5, 6, 7, 0, 8].indexOf 0) 0 = [1, 2, 3, 4, 5, 6, 7, 0, 8].getD t 0 ∧
        p.1.getD t 0 = [1, 2, 3, 4, 5, 6, 7, 0, 8].getD ([1, 2, 3, 4, 5, 6, 7, 0, 8].indexOf 0) 0 ∧
        [1, 2, 3, 4, 5, 6, 7, 0, 8].getD t 0 ≠
          [1, 2, 3, 4, 5, 6, 7, 0, 8].getD ([1, 2, 3, 4, 5, 6, 7, 0, 8].indexOf 0) 0 ∧
        (∀ k, k ≠ [1, 2, 3, 4, 5, 6, 7, 0, 8].indexOf 0 → k ≠ t →
          p.1.getD k 0 = [1, 2, 3, 4, 5, 6, 7, 0, 8].getD k 0)) ∧
    (∀ (fuel : Nat) (r : AResult), astar 3 (goal_board 3) true fuel = .ok r →
        ∀ bb ∈ r.boards, bb.Perm (List.range (3 * 3))) :=
  neighbors_preserve_board_invariant 3 [1, 2, 3, 4, 5, 6, 7, 0, 8] (goal_board 3) true
    (by decide) (by decide) (by decide)

theorem build_goal_positions_getD (n v : Nat) (hv : v < n * n) :
    (build_goal_positions n).getD v (0, 0) =
      if v = 0 then (n - 1, n - 1) else ((v - 1) / n, (v - 1) % n) := by
  unfold build_goal_positions
  have hlen : v < ((List.range (n * n)).map (fun val =>
      if val = 0 then (n - 1, n - 1) else ((val - 1) / n, (val - 1) % n))).length := by
    simpa using hv
  rw [List.getD_eq_getElem _ _ hlen, List.getElem_map, List.getElem_range]

theorem goal_board_length (n : Nat) (hn : 0 < n) : (goal_board n).length = n * n := by
  unfold goal_board
  simp
  have : 0 < n * n := by positivity
  omega

theorem goal_board_getD (n idx : Nat) (hn : 0 < n) (hidx : idx < n * n) :
    (goal_board n).getD idx 0 = if idx = n * n - 1 then 0 else idx + 1 := by
  have hlen : idx < (goal_board n).length := by rw [goal_board_length n hn]; exact hidx
  rw [List.getD_eq_getElem _ _ hlen]
  unfold goal_board
  by_cases h : idx = n * n - 1
  · subst h
    rw [if_pos rfl]
    rw [List.getElem_append_right (by simp)]
    simp
  · rw [if_neg h]
    have hlt : idx < n * n - 1 := by omega
    rw [List.getElem_append_left (by simpa using hlt)]
    simp

theorem mdTerm_nonneg (n : Nat) (gp : List (Nat × Nat)) (idx val : Nat) :
    0 ≤ mdTerm n gp idx val := by
  unfold mdTerm
  split_ifs
  · exact le_refl 0
  · positivity

theorem mdAux_nonneg (n : Nat) (gp : List (Nat × Nat)) :
    ∀ (k : Nat) (l : List Nat), 0 ≤ mdAux n gp k l := by
  intro k l
  induction l generalizing k with
  | nil => exact le_refl 0
  | cons v rest ih => exact add_nonneg (mdTerm_nonneg n gp k v) (ih (k + 1))

theorem manhattan_nonneg (n : Nat) (b : Board) (gp : List (Nat × Nat)) :
    0 ≤ manhattan n b gp := mdAux_nonneg n gp 0 b

theorem linear_conflict_nonneg (n : Nat) (b : Board) (gp : List (Nat × Nat)) :
    0 ≤ linear_conflict n b gp := by
  unfold linear_conflict
  positivity

theorem mdAux_eq_zero_iff (n : Nat) (gp : List (Nat × Nat)) :
    ∀ (k : Nat) (l : List Nat),
      (mdAux n gp k l = 0 ↔ ∀ i < l.length, mdTerm n gp (k + i) (l.getD i 0) = 0) := by
  intro k l
  induction l generalizing k with
  | nil => simp [mdAux]
  | cons v rest ih =>
    rw [mdAux, add_eq_zero_iff_of_nonneg (mdTerm_nonneg n gp k v) (mdAux_nonneg n gp (k + 1) rest)]
    constructor
    · rintro ⟨h1, h2⟩ i hi
      cases i with
      | zero => simpa using h1
      | succ i2 =>
        have hterm := (ih (k + 1)).mp h2 i2 (by simpa using hi)
        have e : k + (i2 + 1) = k + 1 + i2 := by omega
        rw [List.getD_cons_succ, e]
        exact hterm
    · intro h
      refine ⟨by simpa using h 0 (by simp), (ih (k + 1)).mpr ?_⟩
      intro i hi
      have hterm := h (i + 1) (by simpa using hi)
      have e : k + (i + 1) = k + 1 + i := by omega
      rw [List.getD_cons_succ, e] at hterm
      exact hterm

theorem mdTerm_zero_iff (n idx v : Nat) (hn : 0 < n) (hv : v < n * n) (hvne : v ≠ 0) :
    (mdTerm n (build_goal_positions n) idx v = 0 ↔ idx = v - 1) := by
  unfold mdTerm
  rw [if_neg hvne, build_goal_positions_getD n v hv, if_neg hvne]
  dsimp only
  constructor
  · intro h
    have habs := add_eq_zero_iff_of_nonneg (abs_nonneg _) (abs_nonneg _) |>.mp h
    have hdiv : idx / n = (v - 1) / n := by
      have := abs_eq_zero.mp habs.1
      have := sub_eq_zero.mp this
      exact_mod_cast this
    have hmod : idx % n = (v - 1) % n := by
      have := abs_eq_zero.mp habs.2
      have := sub_eq_zero.mp this
      exact_mod_cast this
    calc idx = n * (idx / n) + idx % n := (Nat.div_add_mod idx n).symm
      _ = n * ((v - 1) / n) + (v - 1) % n := by rw [hdiv, hmod]
      _ = v - 1 := Nat.div_add_mod (v - 1) n
  · intro h
    subst h
    simp

theorem manhattan_goal_zero (n : Nat) (hn : 0 < n) :
    manhattan n (goal_board n) (build_goal_positions n) = 0 := by
  unfold manhattan
  rw [mdAux_eq_zero_iff]
  intro i hi
  rw [goal_board_length n hn] at hi
  rw [goal_board_getD n i hn hi]
  by_cases h : i = n * n - 1
  · rw [if_pos h]
    simp [mdTerm]
  · rw [if_neg h]
    rw [show (0 + i) = i from by omega]
    rw [mdTerm_zero_iff n i (i + 1) hn (by omega) (by omega)]
    omega

theorem manhattan_zero_eq_goal (n : Nat) (b : Board) (hn : 0 < n)
    (hb : b.Perm (List.range (n * n)))
    (hmd : manhattan n b (build_goal_positions n) = 0) : b = goal_board n := by
  have hlen : b.length = n * n := by simpa using hb.length_eq
  have hval : ∀ i, i < b.length → b.getD i 0 < n * n := by
    intro i h
    have hmem : b.getD i 0 ∈ b := by
      rw [List.getD_eq_getElem _ _ h]
      exact List.getElem_mem h
    exact List.mem_range.mp (hb.mem_iff.mp hmem)
  unfold manhattan at hmd
  rw [mdAux_eq_zero_iff] at hmd
  have hhome : ∀ i, i < b.length → b.getD i 0 ≠ 0 → b.getD i 0 = i + 1 := by
    intro i hi hne
    have hterm := hmd i hi
    rw [show (0 + i) = i from by omega] at hterm
    have hv := hval i hi
    have := (mdTerm_zero_iff n i _ hn hv hne).mp hterm
    omega
  have hA : ∀ i, i < n * n - 1 → b.getD i 0 = i + 1 := by
    intro i hi
    have hib : i < b.length := by rw [hlen]; omega
    by_cases hz : b.getD i 0 = 0
    · exfalso
      have hmem : (i + 1) ∈ b := hb.mem_iff.mpr (List.mem_range.mpr (by omega))
      obtain ⟨j, hj, hbj⟩ := List.mem_iff_getElem.mp hmem
      have hbj2 : b.getD j 0 = i + 1 := by
        rw [List.getD_eq_getElem _ _ hj]
        exact hbj
      have hj2 := hhome j hj (by omega)
      have : j = i := by omega
      subst this
      omega
    · exact hhome i hib hz
  have hB : b.getD (n * n - 1) 0 = 0 := by
    by_contra hnz
    have hpos : 0 < n * n := by positivity
    have h1 : n * n - 1 < b.length := by rw [hlen]; omega
    have h2 := hhome _ h1 hnz
    have h3 := hval _ h1
    omega
  refine List.ext_getElem (by rw [hlen, goal_board_length n hn]) ?_
  intro idx h1 h2
  have hidx : idx < n * n := by rwa [hlen] at h1
  rw [← List.getD_eq_getElem b 0 h1, ← List.getD_eq_getElem _ 0 h2,
    goal_board_getD n idx hn hidx]
  by_cases h : idx = n * n - 1
  · rw [if_pos h, h]
    exact hB
  · rw [if_neg h]
    exact hA idx (by omega)

theorem pairConf_eq_zero_of_pairwise (key : Nat → Nat) (l : List Nat)
    (h : l.Pairwise (fun a b => key a ≤ key b)) : pairConf key l = 0 := by
  induction l with
  | nil => rfl
  | cons x xs ih =>
    rw [pairConf]
    rcases List.pairwise_cons.mp h with ⟨hhead, htail⟩
    have h1 : xs.countP (fun y => key y < key x) = 0 := by
      rw [List.countP_eq_zero]
      intro a ha
      simp only [decide_eq_true_eq, Bool.not_eq_true]
      simpa using not_lt.mpr (hhead a ha)
    rw [h1, ih htail]

theorem row_col_idx_lt (n r c : Nat) (hr : r < n) (hc : c < n) : r * n + c < n * n := by
  have h1 : (r + 1) * n ≤ n * n := Nat.mul_le_mul_right n (by omega)
  have h2 : (r + 1) * n = r * n + n := by ring
  omega

theorem goal_tile_value (n idx : Nat) (hn : 0 < n) (hidx : idx < n * n)
    (hne : (goal_board n).getD idx 0 ≠ 0) : (goal_board n).getD idx 0 = idx + 1 := by
  rw [goal_board_getD n idx hn hidx] at *
  by_cases h : idx = n * n - 1
  · rw [if_pos h] at hne
    exact absurd rfl hne
  · rw [if_neg h]

theorem row_tiles_goal_pairwise (n r : Nat) (hn : 0 < n) (hr : r < n) :
    (row_tiles n (goal_board n) (build_goal_positions n) r).Pairwise
      (fun a b => ((build_goal_positions n).getD a (0, 0)).2 ≤
                  ((build_goal_positions n).getD b (0, 0)).2) := by
  unfold row_tiles
  rw [List.pairwise_filterMap]
  have key_of : ∀ c, c < n → ∀ x,
      (x ∈ (if (goal_board n).getD (r * n + c) 0 ≠ 0 ∧
          ((build_goal_positions n).getD ((goal_board n).getD (r * n + c) 0) (0, 0)).1 = r
        then some ((goal_board n).getD (r * n + c) 0) else none)) →
      ((build_goal_positions n).getD x (0, 0)).2 = c := by
    intro c hc x hx
    split_ifs at hx with hP
    · have hval : (goal_board n).getD (r * n + c) 0 = x := Option.mem_some_iff.mp hx
      have hidx : r * n + c < n * n := row_col_idx_lt n r c hr hc
      have hx_val : x = r * n + c + 1 := by
        rw [← hval]
        exact goal_tile_value n _ hn hidx hP.1
      have hne2 : r * n + c ≠ n * n - 1 := by
        intro heq
        have hgv := goal_board_getD n _ hn hidx
        rw [if_pos heq] at hgv
        exact hP.1 hgv
      subst hx_val
      have hlt2 : r * n + c + 1 < n * n := by omega
      rw [build_goal_positions_getD n _ hlt2, if_neg (by omega)]
      dsimp only
      rw [show r * n + c + 1 - 1 = n * r + c from by rw [Nat.add_sub_cancel, Nat.mul_comm],
        Nat.mul_add_mod n r c, Nat.mod_eq_of_lt hc]
    · simp at hx
  refine (List.pairwise_lt_range n).imp_of_mem ?_
  intro c1 c2 hc1 hc2 hlt
  intro x hx y hy
  rw [key_of c1 (List.mem_range.mp hc1) x hx, key_of c2 (List.mem_range.mp hc2) y hy]
  omega

theorem col_tiles_goal_pairwise (n c : Nat) (hn : 0 < n) (hc : c < n) :
    (col_tiles n (goal_board n) (build_goal_positions n) c).Pairwise
      (fun a b => ((build_goal_positions n).getD a (0, 0)).1 ≤
                  ((build_goal_positions n).getD b (0, 0)).1) := by
  unfold col_tiles
  rw [List.pairwise_filterMap]
  have key_of : ∀ r, r < n → ∀ x,
      (x ∈ (if (goal_board n).getD (r * n + c) 0 ≠ 0 ∧
          ((build_goal_positions n).getD ((goal_board n).getD (r * n + c) 0) (0, 0)).2 = c
        then some ((goal_board n).getD (r * n + c) 0) else none)) →
      ((build_goal_positions n).getD x (0, 0)).1 = r := by
    intro r hr x hx
    split_ifs at hx with hP
    · have hval : (goal_board n).getD (r * n + c) 0 = x := Option.mem_some_iff.mp hx
      have hidx : r * n + c < n * n := row_col_idx_lt n r c hr hc
      have hx_val : x = r * n + c + 1 := by
        rw [← hval]
        exact goal_tile_value n _ hn hidx hP.1
      have hne2 : r * n + c ≠ n * n - 1 := by
        intro heq
        have hgv := goal_board_getD n _ hn hidx
        rw [if_pos heq] at hgv
        exact hP.1 hgv
      subst hx_val
      have hlt2 : r * n + c + 1 < n * n := by omega
      rw [build_goal_positions_getD n _ hlt2, if_neg (by omega)]
      dsimp only
      rw [show r * n + c + 1 - 1 = n * r + c from by rw [Nat.add_sub_cancel, Nat.mul_comm],
        Nat.mul_add_div hn r c, Nat.div_eq_of_lt hc, Nat.add_zero]
    · simp at hx
  refine (List.pairwise_lt_range n).imp_of_mem ?_
  intro r1 r2 hr1 hr2 hlt x hx y hy
  rw [key_of r1 (List.mem_range.mp hr1) x hx, key_of r2 (List.mem_range.mp hr2) y hy]
  omega

theorem linear_conflict_goal_zero (n : Nat) (hn : 0 < n) :
    linear_conflict n (goal_board n) (build_goal_positions n) = 0 := by
  unfold linear_conflict
  have h1 : ((List.range n).map (fun r =>
      2 * pairConf (fun v => ((build_goal_positions n).getD v (0, 0)).2)
        (row_tiles n (goal_board n) (build_goal_positions n) r))).sum = 0 := by
    apply List.sum_eq_zero
    intro x hx
    obtain ⟨r, hr, rfl⟩ := List.mem_map.mp hx
    rw [pairConf_eq_zero_of_pairwise _ _ (row_tiles_goal_pairwise n r hn (List.mem_range.mp hr))]
    ring
  have h2 : ((List.range n).map (fun c =>
      2 * pairConf (fun v => ((build_goal_positions n).getD v (0, 0)).1)
        (col_tiles n (goal_board n) (build_goal_positions n) c))).sum = 0 := by
    apply List.sum_eq_zero
    intro x hx
    obtain ⟨c, hc, rfl⟩ := List.mem_map.mp hx
    rw [pairConf_eq_zero_of_pairwise _ _ (col_tiles_goal_pairwise n c hn (List.mem_range.mp hc))]
    ring
  rw [h1, h2]
  simp

/-- C5: for every valid state (a permutation of {0, ..., n^2-1}), the Manhattan
distance and the linear-conflict correction over `build_goal_positions n` are
each nonnegative, and their sum — the combined heuristic — equals 0 exactly
when the state is the canonical goal arrangement: it is 0 at `goal_board n`
and nonzero at every other valid state. -/
theorem heuristic_zero_iff_goal (n : Nat) (b : Board) (hn : 0 < n)
    (hb : b.Perm (List.range (n * n))) :
    0 ≤ manhattan n b (build_goal_positions n) ∧
    0 ≤ linear_conflict n b (build_goal_positions n) ∧
    (heuristic n b (build_goal_positions n) = 0 ↔ b = goal_board n) := by
  refine ⟨manhattan_nonneg n b _, linear_conflict_nonneg n b _, ?_, ?_⟩
  · intro h0
    unfold heuristic at h0
    have hlc := linear_conflict_nonneg n b (build_goal_positions n)
    have hmd0 := manhattan_nonneg n b (build_goal_positions n)
    have hmd : manhattan n b (build_goal_positions n) = 0 := by linarith
    exact manhattan_zero_eq_goal n b hn hb hmd
  · intro hgoal
    subst hgoal
    unfold heuristic
    rw [manhattan_goal_zero n hn, linear_conflict_goal_zero n hn]
    ring

/-- Witness for C5 at n=3 and the goal board. -/
theorem heuristic_zero_iff_goal_witness :
    0 ≤ manhattan 3 (goal_board 3) (build_goal_positions 3) ∧
    0 ≤ linear_conflict 3 (goal_board 3) (build_goal_positions 3) ∧
    (heuristic 3 (goal_board 3) (build_goal_positions 3) = 0 ↔ goal_board 3 = goal_board 3) :=
  heuristic_zero_iff_goal 3 (goal_board 3) (by decide) (by decide)

/-- C1 (code bug): the heuristic strictly overestimates the true remaining
cost.  From `revBoard` = (0,8,7,6,5,4,3,2,1) the 28 moves of `revPath` reach
the goal through `neighbors`, so the optimal cost is at most 28, yet the
combined heuristic claims 32.  An overestimating heuristic breaks the claimed
optimality of the heuristic-guided search: at n=3,
start=(8,5,7,6,0,4,3,2,1), the A* run with the heuristic returns moves=30
while uniform-cost returns the true minimum 28. -/
theorem heuristic_overestimates_true_cost :
    applyMoves 3 revPath revBoard = some (goal_board 3) ∧
    revPath.length = 28 ∧
    heuristic 3 revBoard (build_goal_positions 3) = 32 ∧
    ¬ (heuristic 3 revBoard (build_goal_positions 3) ≤ 28) := by
  refine ⟨by decide, by decide, by decide, by decide⟩

/-- C3 (code bug): the combined heuristic is not consistent.  At the solvable
n=3 state (7,2,3,4,0,6,1,8,5) the heuristic is 12, but its L-neighbor
(7,2,3,0,4,6,1,8,5) — one blank move away — has heuristic 9, violating
h(state) ≤ 1 + h(next).  (It is not admissible either: see the 28-move
certificate against the value 32 at `revBoard`.) -/
theorem heuristic_consistency_violation :
    heuristic 3 [7, 2, 3, 4, 0, 6, 1, 8, 5] (build_goal_positions 3) = 12 ∧
    ([7, 2, 3, 0, 4, 6, 1, 8, 5], "L") ∈ neighbors 3 [7, 2, 3, 4, 0, 6, 1, 8, 5] ∧
    heuristic 3 [7, 2, 3, 0, 4, 6, 1, 8, 5] (build_goal_positions 3) = 9 ∧
    is_solvable 3 [7, 2, 3, 4, 0, 6, 1, 8, 5] = true ∧
    ¬ (heuristic 3 [7, 2, 3, 4, 0, 6, 1, 8, 5] (build_goal_positions 3) ≤
        1 + heuristic 3 [7, 2, 3, 0, 4, 6, 1, 8, 5] (build_goal_positions 3)) := by
  refine ⟨by decide, by decide, by decide, by decide, by decide⟩

/-- Supporting fact for the error-handling design (claim C8, first half): when
the main loop finds the frontier empty before ever popping the goal, it
surfaces the RuntimeError of the source — it never fabricates a result
record.  (The second half of that claim, that this branch is unreachable for
every start passing `is_solvable`, rests on the parity-solvability theorem of
the n-puzzle and is not settled here.) -/
theorem astarLoop_empty_frontier_error (n : Nat) (goal : Board) (useH : Bool)
    (table : List (Nat × Nat)) (fuel : Nat) (st : SearchState) (hpq : st.pq = []) :
    astarLoop n goal useH table (fuel + 1) st =
      .error "No solution found (this should not happen if solvable)." := by
  rw [astarLoop, hpq]
  rfl
